import Mathlib

/-!
Shallow embedding of `src/digitalocean/resource_digitalocean_firewall.go`
(the DigitalOcean firewall resource of a Terraform provider) and proofs
about its rule-reconciliation algorithm and CRUD lifecycle.

Conventions of the embedding:
* Go slices become `List`; a `nil` slice and an empty slice both become `[]`
  (the only place the source distinguishes them, the `rules == nil` check in
  `flattenFirewallInboundRules`, yields the same result for both).
* The untyped `map[string]interface{}` rule records of the source become the
  typed structure `Rule`; the schema guarantees exactly those six keys with
  those types, so the typed record is an exact model.
* Go `map[int]...` tables become association lists (`List (Nat × _)`) with
  last-write-wins insertion, which is extensionally the Go map.  Go map
  iteration order is unspecified; the model fixes one concrete order and no
  theorem below depends on which order was chosen.
* Machine integers are modelled as `Nat`/`Int`; the 32-bit hash arithmetic
  carries explicit `% 2^32`-style bounds through `Nat` operations.
-/

/-! ## CRC-32 and `hashcode.String`

`hashFirewallRule` in the source calls `hashcode.String` from the vendored
`github.com/hashicorp/terraform/helper/hashcode` package (not under `src/`),
which is `int(crc32.ChecksumIEEE([]byte(s)))` with a sign fixup.  We embed
CRC-32/IEEE (reflected, polynomial 0xEDB88320) over the UTF-8 bytes of the
string.  On 64-bit Go an `int` holds the full unsigned 32-bit checksum, so
the sign fixup is the identity; it is transcribed anyway. -/

/-- One round of the bitwise reflected CRC-32 division step. -/
def crc32Round (crc : Nat) : Nat :=
  if crc % 2 = 1 then (crc / 2) ^^^ 3988292384 else crc / 2

/-- `n` rounds of `crc32Round`. -/
def crc32Rounds : Nat → Nat → Nat
  | 0, crc => crc
  | n + 1, crc => crc32Rounds n (crc32Round crc)

/-- Absorb one byte into the running CRC-32 state. -/
def crc32Update (crc b : Nat) : Nat :=
  crc32Rounds 8 (crc ^^^ b)

/-- CRC-32/IEEE of a byte list (init `0xFFFFFFFF`, final xor `0xFFFFFFFF`). -/
def crc32 (bytes : List Nat) : Nat :=
  (bytes.foldl crc32Update 4294967295) ^^^ 4294967295

/-- UTF-8 encoding of one character, as byte values. -/
def charUtf8 (c : Char) : List Nat :=
  let n := c.toNat
  if n < 128 then [n]
  else if n < 2048 then [192 + n / 64, 128 + n % 64]
  else if n < 65536 then [224 + n / 4096, 128 + (n / 64) % 64, 128 + n % 64]
  else [240 + n / 262144, 128 + (n / 4096) % 64, 128 + (n / 64) % 64, 128 + n % 64]

/-- UTF-8 bytes of a string. -/
def utf8Bytes (s : String) : List Nat :=
  s.toList.foldr (fun c acc => charUtf8 c ++ acc) []

/-- `hashcode.String` from the vendored Terraform helper (dependency, not in
`src/`): `v := int(crc32.ChecksumIEEE([]byte(s)))`, returning `v` when
non-negative, `-v` otherwise.  The checksum is below `2^32`, so on 64-bit Go
the conversion and fixup are the identity, transcribed here on `Int`. -/
def hashcodeString (s : String) : Nat :=
  let v : Int := (crc32 (utf8Bytes s) : Int)
  (if 0 ≤ v then v else -v).toNat

/-- `hashFirewallRule` (source lines 586-590): hash of the string
`"<protocol>-<portRange>"`. -/
def hashFirewallRule (protocol portRange : String) : Nat :=
  hashcodeString (protocol ++ "-" ++ portRange)

/-! ## Rules -/

/-- One firewall rule record.  Inbound rules carry these fields under
`source_*` keys, outbound rules under `destination_*` keys; the two record
shapes are structurally identical and share this one type. -/
structure Rule where
  protocol : String
  portRange : String
  dropletIDs : List Int
  tags : List String
  addresses : List String
  loadBalancerUIDs : List String
deriving DecidableEq

/-- The fingerprint of a rule: `hashFirewallRule` of its identity key. -/
def fpRule (r : Rule) : Nat :=
  hashFirewallRule r.protocol r.portRange

/-- The (protocol, port_range) identity pair of a rule. -/
def pairOf (r : Rule) : String × String :=
  (r.protocol, r.portRange)

/-! ## List reconciliation (`matchFirewallIntLists` / `matchFirewallStringLists`)

The source builds an unordered set from the remote list (`map[int]bool` for
integers, `schema.NewSet(schema.HashString, ...)` for strings — the latter a
framework container not under `src/`), walks the local list emitting members
still present in the set while deleting them, then appends the set's
leftovers.  Modelled from the spec: the framework set container is the
spec's "mutable set" of values (§4.2 step 1); the model keeps it as a
duplicate-free list in first-insertion order.  Set iteration order for the
leftover tail is unspecified in the source; the model fixes first-insertion
order and no theorem depends on that choice. -/

/-- Insert into a duplicate-free list modelling an unordered set. -/
def setInsert {α : Type} [DecidableEq α] (s : List α) (x : α) : List α :=
  if x ∈ s then s else s ++ [x]

/-- Build the set of a list's members. -/
def setOfList {α : Type} [DecidableEq α] (l : List α) : List α :=
  l.foldl setInsert []

/-- The local-scan loop shared by both match functions: emit each local item
still present in the remote set, deleting it as it is matched; return the
matched items and the remaining set. -/
def matchLoop {α : Type} [DecidableEq α] : List α → List α → List α × List α
  | [], remoteSet => ([], remoteSet)
  | x :: xs, remoteSet =>
    if x ∈ remoteSet then
      let res := matchLoop xs (remoteSet.erase x)
      (x :: res.1, res.2)
    else
      matchLoop xs remoteSet

/-- Common body of `matchFirewallIntLists` and `matchFirewallStringLists`
(source lines 531-584): the two Go functions are textually identical up to
the element type and set container. -/
def matchFirewallLists {α : Type} [DecidableEq α] (localList remoteList : List α) : List α :=
  let remoteSet := setOfList remoteList
  let res := matchLoop localList remoteSet
  res.1 ++ res.2

/-- `matchFirewallIntLists` (source lines 531-556).  The Go function receives
the two rule records and a key and reads `local[key]`/`remote[key]`; the
typed model passes those two lists directly. -/
def matchFirewallIntLists (localList remoteList : List Int) : List Int :=
  matchFirewallLists localList remoteList

/-- `matchFirewallStringLists` (source lines 558-584), same calling
convention as `matchFirewallIntLists`. -/
def matchFirewallStringLists (localList remoteList : List String) : List String :=
  matchFirewallLists localList remoteList

/-! ## Rule reconciliation (`flattenFirewallInboundRules` / `flattenFirewallOutboundRules`) -/

/-- Association-list model of the Go `map[int]map[string]interface{}`:
insertion is last-write-wins. -/
def mapErase (m : List (Nat × Rule)) (k : Nat) : List (Nat × Rule) :=
  m.filter (fun p => p.1 ≠ k)

/-- Insert with last-write-wins semantics. -/
def mapInsert (m : List (Nat × Rule)) (k : Nat) (v : Rule) : List (Nat × Rule) :=
  mapErase m k ++ [(k, v)]

/-- Lookup in the association list. -/
def mapLookup (m : List (Nat × Rule)) (k : Nat) : Option Rule :=
  (m.find? (fun p => p.1 = k)).map (·.2)

/-- The keys of the association list. -/
def mapKeys (m : List (Nat × Rule)) : List Nat :=
  m.map (·.1)

/-- The values of the association list, in entry order (the Go source
iterates the map in unspecified order; no theorem depends on this order). -/
def mapValues (m : List (Nat × Rule)) : List Rule :=
  m.map (·.2)

/-- The `remoteMap` built by the flatten functions: remote rules keyed by
fingerprint, later entries overwriting earlier ones. -/
def buildRemoteMap (rules : List Rule) : List (Nat × Rule) :=
  rules.foldl (fun m rule => mapInsert m (fpRule rule) rule) []

/-- The merged rule emitted for a local rule matched against a remote rule:
the local rule's identity key with each party-set list reconciled
(source lines 445-457 / 507-517; the Go code mutates the local record's four
list keys in place and appends it, which is this record). -/
def mergeRule (localRule remoteRule : Rule) : Rule :=
  { protocol := localRule.protocol
    portRange := localRule.portRange
    dropletIDs := matchFirewallIntLists localRule.dropletIDs remoteRule.dropletIDs
    tags := matchFirewallStringLists localRule.tags remoteRule.tags
    addresses := matchFirewallStringLists localRule.addresses remoteRule.addresses
    loadBalancerUIDs :=
      matchFirewallStringLists localRule.loadBalancerUIDs remoteRule.loadBalancerUIDs }

/-- The local-rule scan of the flatten functions (source lines 433-459):
for each local rule, look its fingerprint up in the remote map; on a miss
drop the rule, on a hit emit the merged rule and delete the fingerprint.
Returns the emitted rules and the remaining map. -/
def flattenLoop : List Rule → List (Nat × Rule) → List Rule × List (Nat × Rule)
  | [], m => ([], m)
  | r :: rest, m =>
    match mapLookup m (fpRule r) with
    | none => flattenLoop rest m
    | some rr =>
      let res := flattenLoop rest (mapErase m (fpRule r))
      (mergeRule r rr :: res.1, res.2)

/-- `flattenFirewallInboundRules` (source lines 403-467).  The first branch
is the `rules == nil` check; the fast path returns the rebuilt remote list
(identical to `rules` in the typed model) when either side is empty; the
main path runs the scan and appends the map's leftover remote-only rules. -/
def flattenFirewallInboundRules (localRules : List Rule) (rules : List Rule) : List Rule :=
  if rules.isEmpty then []
  else
    let remoteMap := buildRemoteMap rules
    if rules.isEmpty || localRules.isEmpty then rules
    else
      let res := flattenLoop localRules remoteMap
      res.1 ++ mapValues res.2

/-- `flattenFirewallOutboundRules` (source lines 469-529): textually the
inbound function minus the `rules == nil` check, over `destination_*`
fields (the shared `Rule` type). -/
def flattenFirewallOutboundRules (localRules : List Rule) (rules : List Rule) : List Rule :=
  let remoteMap := buildRemoteMap rules
  if rules.isEmpty || localRules.isEmpty then rules
  else
    let res := flattenLoop localRules remoteMap
    res.1 ++ mapValues res.2

/-! ## Diff suppression for `port_range` -/

/-- The `DiffSuppressFunc` of `inbound_rule.port_range` (source lines
88-94): suppress when the old value is `"0"` and the new value is `"all"`,
otherwise suppress exactly on equality. -/
def inboundPortRangeDiffSuppress (oldV newV : String) : Bool :=
  if oldV = "0" && newV = "all" then true
  else oldV = newV

/-- The `DiffSuppressFunc` of `outbound_rule.port_range` (source lines
131-137), textually identical to the inbound one. -/
def outboundPortRangeDiffSuppress (oldV newV : String) : Bool :=
  if oldV = "0" && newV = "all" then true
  else oldV = newV

/-! ## CRUD lifecycle model

The Terraform `schema.ResourceData` store is modelled as the typed record
`LocalState` covering exactly the declared schema fields plus the resource
identity.  `d.Set` on the three string scalars is routed through a key-based
setter so that the source's key strings are transcribed verbatim: setting an
undeclared key is a no-op on the stored fields (the framework rejects the
key with an error that the source discards).  Each remote API call's outcome
is an explicit input of the corresponding CRUD function, which returns the
resulting local state together with the operation's `error` result. -/

/-- One `pending_changes` record. -/
structure PendingChange where
  droplet_id : Int
  removing : Bool
  status : String
deriving DecidableEq

/-- The remote firewall object returned by the API client
(`godo.Firewall`), restricted to the fields the source reads. -/
structure Firewall where
  id : String
  status : String
  created : String
  pendingChanges : List PendingChange
  name : String
  dropletIDs : List Int
  tags : List String
  inboundRules : List Rule
  outboundRules : List Rule
deriving DecidableEq

/-- The local resource state: the identity plus the declared schema fields.
`droplet_ids` is a list of string-encoded integers, as declared in the
schema. -/
structure LocalState where
  id : String
  status : String
  created_at : String
  pending_changes : List PendingChange
  name : String
  droplet_ids : List String
  tags : List String
  inbound_rule : List Rule
  outbound_rule : List Rule
deriving DecidableEq

/-- `d.Set` on a string scalar, by schema key.  An undeclared key (the
framework returns an error, discarded by the source) leaves the state
unchanged. -/
def setStringField (d : LocalState) (key : String) (v : String) : LocalState :=
  if key = "status" then { d with status := v }
  else if key = "created_at" then { d with created_at := v }
  else if key = "name" then { d with name := v }
  else d

/-- Outcome of `client.Firewalls.Get`: success with a firewall, an error
whose response carried HTTP 404 (the not-found signal), or any other
error. -/
inductive GetOutcome where
  | ok (fw : Firewall)
  | notFound
  | err (msg : String)

/-- Outcome of `client.Firewalls.Create`. -/
inductive CreateOutcome where
  | ok (fw : Firewall)
  | err (msg : String)

/-- Outcome of `client.Firewalls.Update` (the returned firewall is
discarded by the source). -/
inductive UpdateOutcome where
  | ok
  | err (msg : String)

/-- Outcome of `client.Firewalls.Delete`. -/
inductive DeleteOutcome where
  | ok
  | err (msg : String)

/-- Bytewise substring test, modelling Go's `strings.Contains`:
does `hay` start with `needle`? -/
def charsStartWith : List Char → List Char → Bool
  | [], _ => true
  | _ :: _, [] => false
  | a :: as, b :: bs => a = b && charsStartWith as bs

/-- Does `needle` occur as a contiguous run inside `hay`? -/
def charsHaveRun (needle : List Char) : List Char → Bool
  | [] => charsStartWith needle []
  | b :: bs => charsStartWith needle (b :: bs) || charsHaveRun needle bs

/-- `strings.Contains hay needle`. -/
def stringContains (hay needle : String) : Bool :=
  charsHaveRun needle.toList hay.toList

/-- `firewallPendingChanges` (source lines 390-401): converts each remote
pending-change record to its raw form — the identity in the typed model. -/
def firewallPendingChanges (firewall : Firewall) : List PendingChange :=
  firewall.pendingChanges

/-- `expandFirewallInboundRules` (source lines 316-351): converts each raw
local rule into the wire structure field by field — the identity on the
typed rule list. -/
def expandFirewallInboundRules (d : LocalState) : List Rule :=
  d.inbound_rule

/-- `expandFirewallOutboundRules` (source lines 353-388), likewise the
identity on the typed rule list. -/
def expandFirewallOutboundRules (d : LocalState) : List Rule :=
  d.outbound_rule

/-- Is `c` an ASCII decimal digit? -/
def isDigitChar (c : Char) : Bool :=
  '0' ≤ c && c ≤ '9'

/-- Accumulate decimal digits; fails on the first non-digit. -/
def digitsToNat (acc : Nat) : List Char → Option Nat
  | [] => some acc
  | c :: cs => if isDigitChar c then digitsToNat (acc * 10 + (c.toNat - 48)) cs else none

/-- `strconv.Atoi`: an optional sign followed by at least one decimal
digit. Go additionally rejects values outside the 64-bit range; that bound
is not modelled and no claim depends on it. -/
def atoi (s : String) : Except String Int :=
  let core : Bool × List Char :=
    match s.toList with
    | '-' :: rest => (true, rest)
    | '+' :: rest => (false, rest)
    | l => (false, l)
  match core.2, digitsToNat 0 core.2 with
  | [], _ => .error ("strconv.Atoi: parsing " ++ s ++ ": invalid syntax")
  | _ :: _, none => .error ("strconv.Atoi: parsing " ++ s ++ ": invalid syntax")
  | _ :: _, some n => .ok (if core.1 then -(n : Int) else (n : Int))

/-- Does `atoi` accept the string? -/
def atoiOk (s : String) : Bool :=
  match atoi s with
  | .ok _ => true
  | .error _ => false

/-- The `droplet_ids` parse loop of `firewallRequest` (source lines
287-297): `strconv.Atoi` on each entry, failing on the first bad one. -/
def parseDropletIDs : List String → Except String (List Int)
  | [] => .ok []
  | s :: rest =>
    match atoi s with
    | .error e => .error e
    | .ok i =>
      match parseDropletIDs rest with
      | .error e => .error e
      | .ok l => .ok (i :: l)

/-- The wire-format request (`godo.FirewallRequest`). -/
structure FirewallRequest where
  name : String
  dropletIDs : List Int
  tags : List String
  inboundRules : List Rule
  outboundRules : List Rule
deriving DecidableEq

/-- `firewallRequest` (source lines 281-314): pure translation of the local
state into the wire request; the only failure is a droplet ID that does not
parse as an integer. -/
def firewallRequest (d : LocalState) : Except String FirewallRequest :=
  match parseDropletIDs d.droplet_ids with
  | .error e => .error e
  | .ok ids =>
    .ok { name := d.name
          dropletIDs := ids
          tags := d.tags
          inboundRules := expandFirewallInboundRules d
          outboundRules := expandFirewallOutboundRules d }

/-- `resourceDigitalOceanFirewallRead` (source lines 188-220): a 404 from
`Get` clears the identity and succeeds; another error is surfaced
unchanged; on success the scalar fields are overwritten (the source writes
the key `"create_at"`, which is not a declared schema key) and both rule
lists are reconciled against the current local lists. -/
def resourceDigitalOceanFirewallRead (get : GetOutcome) (d : LocalState) :
    LocalState × Except String Unit :=
  match get with
  | .notFound => ({ d with id := "" }, .ok ())
  | .err msg => (d, .error ("Error retrieving firewall: " ++ msg))
  | .ok firewall =>
    let d := setStringField d "status" firewall.status
    let d := setStringField d "create_at" firewall.created
    let d := { d with pending_changes := firewallPendingChanges firewall }
    let d := setStringField d "name" firewall.name
    let d := { d with droplet_ids := firewall.dropletIDs.map (fun i => toString i) }
    let d := { d with tags := firewall.tags }
    let d := { d with
      inbound_rule := flattenFirewallInboundRules d.inbound_rule firewall.inboundRules }
    let d := { d with
      outbound_rule := flattenFirewallOutboundRules d.outbound_rule firewall.outboundRules }
    (d, .ok ())

/-- `resourceDigitalOceanFirewallCreate` (source lines 165-186): build the
request, call the remote `Create`, record the new identity, then re-run
`Read`. -/
def resourceDigitalOceanFirewallCreate (create : CreateOutcome) (get : GetOutcome)
    (d : LocalState) : LocalState × Except String Unit :=
  match firewallRequest d with
  | .error e => (d, .error ("Error in firewall request: " ++ e))
  | .ok _opts =>
    match create with
    | .err msg => (d, .error ("Error creating firewall: " ++ msg))
    | .ok firewall =>
      resourceDigitalOceanFirewallRead get { d with id := firewall.id }

/-- `resourceDigitalOceanFirewallUpdate` (source lines 222-238): build the
request, call the remote `Update`, then re-run `Read`. -/
def resourceDigitalOceanFirewallUpdate (update : UpdateOutcome) (get : GetOutcome)
    (d : LocalState) : LocalState × Except String Unit :=
  match firewallRequest d with
  | .error e => (d, .error ("Error in firewall request: " ++ e))
  | .ok _opts =>
    match update with
    | .err msg => (d, .error ("Error updating firewall: " ++ msg))
    | .ok => resourceDigitalOceanFirewallRead get d

/-- `resourceDigitalOceanFirewallDelete` (source lines 240-258): an error
whose text contains `"404 Not Found"` is absorbed; any other error is
surfaced; the local state is never touched. -/
def resourceDigitalOceanFirewallDelete (del : DeleteOutcome) (d : LocalState) :
    LocalState × Except String Unit :=
  match del with
  | .ok => (d, .ok ())
  | .err msg =>
    if stringContains msg "404 Not Found" then (d, .ok ())
    else (d, .error ("Error deleting firewall: " ++ msg))

/-- `resourceDigitalOceanFirewallExists` (source lines 260-279): a 404
clears the identity and reports `false` without error; another error is
surfaced; success reports `true`. -/
def resourceDigitalOceanFirewallExists (get : GetOutcome) (d : LocalState) :
    LocalState × Except String Bool :=
  match get with
  | .notFound => ({ d with id := "" }, .ok false)
  | .err msg => (d, .error ("Error retrieving firewall: " ++ msg))
  | .ok _ => (d, .ok true)

deriving instance DecidableEq for Except

set_option maxRecDepth 10000

/-! ## Sample data for concrete theorems -/

/-- Sample remote firewall. -/
def fwSample : Firewall :=
  { id := "f1", status := "active", created := "2017-05-08T00:00:00Z",
    pendingChanges := [], name := "web", dropletIDs := [7],
    tags := ["prod"], inboundRules := [], outboundRules := [] }

/-- Sample local state with a stale `created_at` and empty identity. -/
def dStale : LocalState :=
  { id := "", status := "waiting", created_at := "stale",
    pending_changes := [], name := "old", droplet_ids := [],
    tags := [], inbound_rule := [], outbound_rule := [] }

/-- Sample local state whose second droplet ID is not an integer literal. -/
def dBadID : LocalState :=
  { dStale with droplet_ids := ["123", "4x"] }

/-- Sample rules for concrete theorems. -/
def ruleTcp80 : Rule :=
  { protocol := "tcp", portRange := "80", dropletIDs := [7],
    tags := ["web"], addresses := ["0.0.0.0/0"], loadBalancerUIDs := [] }

/-- A second sample rule with a distinct identity key. -/
def ruleTcp22 : Rule :=
  { protocol := "tcp", portRange := "22", dropletIDs := [],
    tags := [], addresses := ["10.0.0.0/8"], loadBalancerUIDs := [] }

/-- A rule whose identity key serializes to `"a-b-c"` one way. -/
def ruleAmbig1 : Rule :=
  { protocol := "a", portRange := "b-c", dropletIDs := [],
    tags := [], addresses := [], loadBalancerUIDs := [] }

/-- A different rule whose identity key serializes to the same `"a-b-c"`. -/
def ruleAmbig2 : Rule :=
  { protocol := "a-b", portRange := "c", dropletIDs := [],
    tags := [], addresses := [], loadBalancerUIDs := [] }

/-- A rule whose droplet-ID list repeats an entry. -/
def ruleDupIDs : Rule :=
  { protocol := "tcp", portRange := "80", dropletIDs := [1, 1],
    tags := [], addresses := [], loadBalancerUIDs := [] }

/-- A local duplicate of `ruleTcp80`'s identity key with different party
fields. -/
def ruleTcp80b : Rule :=
  { protocol := "tcp", portRange := "80", dropletIDs := [9],
    tags := ["alt"], addresses := [], loadBalancerUIDs := [] }

/-! ## Theorems -/

/-- **C4 counterexample.** The `port_range` diff-suppression predicates do
not treat `"0"` and `"all"` as interchangeable in either order: with the
old value `"all"` and the new value `"0"` the diff is not suppressed, in
both rule blocks. -/
theorem port_range_suppress_asymmetric_cex :
    inboundPortRangeDiffSuppress "all" "0" = false ∧
    outboundPortRangeDiffSuppress "all" "0" = false := by
  decide

/-- **C4 (amended).** Both `port_range` diff-suppression predicates
suppress exactly when the old value is `"0"` and the new value is `"all"`
— in that order only — or the two values are equal; in particular
`suppress "0" "all"` is true, `suppress "80" "443"` is false and
`suppress "80" "80"` is true. -/
theorem port_range_suppress_characterization :
    (∀ oldV newV : String, inboundPortRangeDiffSuppress oldV newV = true ↔
        ((oldV = "0" ∧ newV = "all") ∨ oldV = newV)) ∧
    (∀ oldV newV : String, outboundPortRangeDiffSuppress oldV newV = true ↔
        ((oldV = "0" ∧ newV = "all") ∨ oldV = newV)) ∧
    inboundPortRangeDiffSuppress "0" "all" = true ∧
    inboundPortRangeDiffSuppress "80" "443" = false ∧
    inboundPortRangeDiffSuppress "80" "80" = true ∧
    outboundPortRangeDiffSuppress "0" "all" = true ∧
    outboundPortRangeDiffSuppress "80" "443" = false ∧
    outboundPortRangeDiffSuppress "80" "80" = true := by
  refine ⟨?_, ?_, by decide, by decide, by decide, by decide, by decide, by decide⟩ <;>
    · intro oldV newV
      by_cases h1 : oldV = "0" <;> by_cases h2 : newV = "all" <;>
        simp [inboundPortRangeDiffSuppress, outboundPortRangeDiffSuppress, h1, h2]

/-- **C5.** Reconciling an empty local rule list against any remote list
returns the remote list unchanged, and reconciling any local list against
an empty remote list returns the empty list, for both rule directions. -/
theorem flatten_empty_fast_path :
    (∀ remote : List Rule, flattenFirewallInboundRules [] remote = remote) ∧
    (∀ remote : List Rule, flattenFirewallOutboundRules [] remote = remote) ∧
    (∀ localRules : List Rule, flattenFirewallInboundRules localRules [] = []) ∧
    (∀ localRules : List Rule, flattenFirewallOutboundRules localRules [] = []) := by
  refine ⟨fun remote => ?_, fun remote => ?_, fun localRules => ?_, fun localRules => ?_⟩
  · cases remote <;> simp [flattenFirewallInboundRules]
  · cases remote <;> simp [flattenFirewallOutboundRules]
  · simp [flattenFirewallInboundRules]
  · simp [flattenFirewallOutboundRules]

/-- **C6 (code bug).** After a successful `Read`, the scalar fields
`status`, `name`, `droplet_ids` and `tags` equal the fetched firewall's
fields, but `created_at` does not: the source writes the undeclared key
`"create_at"` (line 205) while the schema declares `"created_at"`
(line 33), so the stale local value survives a successful refresh. -/
theorem read_created_at_typo_bug :
    ((resourceDigitalOceanFirewallRead (.ok fwSample) dStale).1.status = fwSample.status) ∧
    ((resourceDigitalOceanFirewallRead (.ok fwSample) dStale).1.name = fwSample.name) ∧
    ((resourceDigitalOceanFirewallRead (.ok fwSample) dStale).1.droplet_ids = ["7"]) ∧
    ((resourceDigitalOceanFirewallRead (.ok fwSample) dStale).1.tags = fwSample.tags) ∧
    ((resourceDigitalOceanFirewallRead (.ok fwSample) dStale).2 = .ok ()) ∧
    ((resourceDigitalOceanFirewallRead (.ok fwSample) dStale).1.created_at = "stale") ∧
    fwSample.created ≠ "stale" := by
  decide

/-- **C9.** A remote not-found signal is never surfaced as a failure:
`Read` and `Exists` clear the identity and succeed (`Exists` reporting
`false`), and a `Delete` error mentioning `404 Not Found` is absorbed. -/
theorem not_found_absorbed :
    (∀ d : LocalState,
      resourceDigitalOceanFirewallRead .notFound d = ({ d with id := "" }, .ok ())) ∧
    (∀ d : LocalState,
      resourceDigitalOceanFirewallExists .notFound d = ({ d with id := "" }, .ok false)) ∧
    (∀ (d : LocalState) (msg : String), stringContains msg "404 Not Found" = true →
      resourceDigitalOceanFirewallDelete (.err msg) d = (d, .ok ())) := by
  refine ⟨fun d => rfl, fun d => rfl, fun d msg h => ?_⟩
  simp [resourceDigitalOceanFirewallDelete, h]

/-- Witness for `not_found_absorbed` at a concrete error message. -/
theorem not_found_absorbed_witness :
    stringContains "DELETE firewalls/f1: 404 Not Found" "404 Not Found" = true ∧
    resourceDigitalOceanFirewallDelete (.err "DELETE firewalls/f1: 404 Not Found") dStale
      = (dStale, .ok ()) :=
  ⟨by decide, not_found_absorbed.2.2 dStale "DELETE firewalls/f1: 404 Not Found" (by decide)⟩

/-- `Read` leaves the state untouched on every error-returning path. -/
theorem read_error_preserves (get : GetOutcome) (d : LocalState) (e : String)
    (h : (resourceDigitalOceanFirewallRead get d).2 = .error e) :
    (resourceDigitalOceanFirewallRead get d).1 = d := by
  cases get <;> simp_all [resourceDigitalOceanFirewallRead]

/-- **C7 counterexample.** `Create` is an operation that can return an
error while having mutated the local identity: when the remote `Create`
succeeds but the follow-up `Get` fails with a non-404 error, `Create`
returns that error and the new firewall ID is already recorded. -/
theorem create_mutates_id_on_failing_read_cex :
    ((resourceDigitalOceanFirewallCreate (.ok fwSample) (.err "boom") dStale).2
        = .error "Error retrieving firewall: boom") ∧
    (resourceDigitalOceanFirewallCreate (.ok fwSample) (.err "boom") dStale).1 ≠ dStale := by
  decide

/-- **C7 (amended).** Every error-returning path of `Read`, `Update`,
`Delete` and `Exists` leaves the local state exactly as it was; for
`Create`, an error-returning path either leaves the state unchanged or —
when the remote create succeeded and the follow-up `Read` failed — has
recorded exactly the new firewall's ID.  (The not-found paths of `Read`
and `Exists` clear the identity but return success, so they are not
error-returning paths.) -/
theorem crud_error_state_preservation :
    (∀ (get : GetOutcome) (d : LocalState) (e : String),
      (resourceDigitalOceanFirewallRead get d).2 = .error e →
      (resourceDigitalOceanFirewallRead get d).1 = d) ∧
    (∀ (update : UpdateOutcome) (get : GetOutcome) (d : LocalState) (e : String),
      (resourceDigitalOceanFirewallUpdate update get d).2 = .error e →
      (resourceDigitalOceanFirewallUpdate update get d).1 = d) ∧
    (∀ (del : DeleteOutcome) (d : LocalState) (e : String),
      (resourceDigitalOceanFirewallDelete del d).2 = .error e →
      (resourceDigitalOceanFirewallDelete del d).1 = d) ∧
    (∀ (get : GetOutcome) (d : LocalState) (e : String),
      (resourceDigitalOceanFirewallExists get d).2 = .error e →
      (resourceDigitalOceanFirewallExists get d).1 = d) ∧
    (∀ (create : CreateOutcome) (get : GetOutcome) (d : LocalState) (e : String),
      (resourceDigitalOceanFirewallCreate create get d).2 = .error e →
      (resourceDigitalOceanFirewallCreate create get d).1 = d ∨
        ∃ fw, create = .ok fw ∧
          (resourceDigitalOceanFirewallCreate create get d).1 = { d with id := fw.id }) := by
  refine ⟨read_error_preserves, ?_, ?_, ?_, ?_⟩
  · intro update get d e h
    cases hfr : firewallRequest d <;>
      simp only [resourceDigitalOceanFirewallUpdate, hfr] at h ⊢
    cases update <;> simp_all
    exact read_error_preserves get d e h
  · intro del d e h
    cases del <;> simp_all [resourceDigitalOceanFirewallDelete]
    split at h <;> simp_all
  · intro get d e h
    cases get <;> simp_all [resourceDigitalOceanFirewallExists]
  · intro create get d e h
    cases hfr : firewallRequest d <;>
      simp only [resourceDigitalOceanFirewallCreate, hfr] at h ⊢
    · exact Or.inl (by simp)
    cases create with
    | err msg => exact Or.inl (by simp)
    | ok fw =>
      simp only at h ⊢
      exact Or.inr ⟨fw, rfl, read_error_preserves get { d with id := fw.id } e h⟩

/-- Witness for `crud_error_state_preservation`: each conjunct applied at a
concrete failing call. -/
theorem crud_error_state_preservation_witness :
    ((resourceDigitalOceanFirewallRead (.err "boom") dStale).2
        = .error "Error retrieving firewall: boom") ∧
    ((resourceDigitalOceanFirewallRead (.err "boom") dStale).1 = dStale) ∧
    ((resourceDigitalOceanFirewallUpdate (.err "boom") (.ok fwSample) dStale).1 = dStale) ∧
    ((resourceDigitalOceanFirewallDelete (.err "boom") dStale).1 = dStale) ∧
    ((resourceDigitalOceanFirewallExists (.err "boom") dStale).1 = dStale) ∧
    ((resourceDigitalOceanFirewallCreate (.ok fwSample) (.err "boom") dStale).1 = dStale ∨
      ∃ fw, CreateOutcome.ok fwSample = .ok fw ∧
        (resourceDigitalOceanFirewallCreate (.ok fwSample) (.err "boom") dStale).1
          = { dStale with id := fw.id }) :=
  ⟨by decide,
   crud_error_state_preservation.1 (.err "boom") dStale "Error retrieving firewall: boom"
     (by decide),
   crud_error_state_preservation.2.1 (.err "boom") (.ok fwSample) dStale
     "Error updating firewall: boom" (by decide),
   crud_error_state_preservation.2.2.1 (.err "boom") dStale
     "Error deleting firewall: boom" (by decide),
   crud_error_state_preservation.2.2.2.1 (.err "boom") dStale
     "Error retrieving firewall: boom" (by decide),
   crud_error_state_preservation.2.2.2.2 (.ok fwSample) (.err "boom") dStale
     "Error retrieving firewall: boom" (by decide)⟩

/-- A droplet-ID list with a member `atoi` rejects makes the parse loop
fail. -/
theorem parseDropletIDs_error_of_bad (l : List String)
    (h : ∃ s ∈ l, atoiOk s = false) : ∃ e, parseDropletIDs l = .error e := by
  induction l with
  | nil => simp at h
  | cons s rest ih =>
    obtain ⟨t, ht, hbad⟩ := h
    cases ha : atoi s with
    | error e => exact ⟨e, by simp [parseDropletIDs, ha]⟩
    | ok i =>
      have htr : t ∈ rest := by
        rcases List.mem_cons.mp ht with rfl | h' 
        · simp [atoiOk, ha] at hbad
        · exact h'
      obtain ⟨e, he⟩ := ih ⟨t, htr, hbad⟩
      exact ⟨e, by simp [parseDropletIDs, ha, he]⟩

/-- **C8.** If some `droplet_ids` entry is not a valid integer literal,
the request builder fails, and both `Create` and `Update` return the
parse-derived error with the local state unchanged, no matter what the
remote API would have answered — i.e. without any remote call. -/
theorem invalid_droplet_id_fails_fast (d : LocalState)
    (h : ∃ s ∈ d.droplet_ids, atoiOk s = false) :
    (∃ e, firewallRequest d = .error e) ∧
    (∃ e, ∀ (create : CreateOutcome) (get : GetOutcome),
      resourceDigitalOceanFirewallCreate create get d
        = (d, .error ("Error in firewall request: " ++ e))) ∧
    (∃ e, ∀ (update : UpdateOutcome) (get : GetOutcome),
      resourceDigitalOceanFirewallUpdate update get d
        = (d, .error ("Error in firewall request: " ++ e))) := by
  obtain ⟨e, he⟩ := parseDropletIDs_error_of_bad d.droplet_ids h
  have hfr : firewallRequest d = .error e := by simp [firewallRequest, he]
  refine ⟨⟨e, hfr⟩, ⟨e, fun create get => ?_⟩, ⟨e, fun update get => ?_⟩⟩
  · simp [resourceDigitalOceanFirewallCreate, hfr]
  · simp [resourceDigitalOceanFirewallUpdate, hfr]

/-- Witness for `invalid_droplet_id_fails_fast` at a state whose droplet
list contains the non-numeric entry `"4x"`. -/
theorem invalid_droplet_id_fails_fast_witness :
    (∃ s ∈ dBadID.droplet_ids, atoiOk s = false) ∧
    (∃ e, firewallRequest dBadID = .error e) :=
  ⟨by decide, (invalid_droplet_id_fails_fast dBadID (by decide)).1⟩

/-- The set built from the remote list is duplicate-free and has exactly
the remote list's members. -/
theorem setOfList_aux {α : Type} [DecidableEq α] (l : List α) :
    ∀ acc : List α, acc.Nodup →
      (l.foldl setInsert acc).Nodup ∧
      (∀ a, a ∈ l.foldl setInsert acc ↔ (a ∈ acc ∨ a ∈ l)) := by
  induction l with
  | nil => intro acc hacc; simp [hacc]
  | cons x xs ih =>
    intro acc hacc
    have h1 : (setInsert acc x).Nodup := by
      by_cases hx : x ∈ acc
      · simpa [setInsert, hx] using hacc
      · simp [setInsert, hx, List.nodup_append, hacc]
    have h2 : ∀ a, a ∈ setInsert acc x ↔ (a ∈ acc ∨ a = x) := by
      intro a
      by_cases hx : x ∈ acc
      · simp only [setInsert, if_pos hx]
        exact ⟨Or.inl, fun h => h.elim id (fun he => he ▸ hx)⟩
      · simp [setInsert, hx]
    obtain ⟨hn, hm⟩ := ih (setInsert acc x) h1
    refine ⟨hn, fun a => ?_⟩
    rw [List.foldl_cons, hm a, h2 a]
    simp only [List.mem_cons, or_assoc]

/-- `setOfList` is duplicate-free. -/
theorem setOfList_nodup {α : Type} [DecidableEq α] (l : List α) : (setOfList l).Nodup :=
  (setOfList_aux l [] (by simp)).1

/-- `setOfList` has exactly the list's members. -/
theorem mem_setOfList {α : Type} [DecidableEq α] (l : List α) (a : α) :
    a ∈ setOfList l ↔ a ∈ l := by
  rw [setOfList, (setOfList_aux l [] (by simp)).2 a]
  simp

/-- Full behaviour of the local-scan loop over a duplicate-free remote
set: the matched part is a subsequence of the local list in local order,
matched and leftover items partition the set, and every set member that
occurs locally is matched. -/
theorem matchLoop_spec {α : Type} [DecidableEq α] (L : List α) :
    ∀ S : List α, S.Nodup →
      List.Sublist (matchLoop L S).1 L ∧
      (∀ a ∈ (matchLoop L S).1, a ∈ S) ∧
      (∀ a ∈ (matchLoop L S).2, a ∈ S) ∧
      (matchLoop L S).1.Nodup ∧
      (matchLoop L S).2.Nodup ∧
      (∀ a ∈ (matchLoop L S).2, a ∉ (matchLoop L S).1) ∧
      (∀ a ∈ S, a ∈ (matchLoop L S).1 ∨ a ∈ (matchLoop L S).2) ∧
      (∀ a ∈ S, a ∈ L → a ∈ (matchLoop L S).1) := by
  induction L with
  | nil =>
    intro S hS
    refine ⟨List.Sublist.refl _, ?_, ?_, ?_, ?_, ?_, ?_, ?_⟩ <;>
      simp [matchLoop, hS]
  | cons x xs ih =>
    intro S hS
    by_cases hx : x ∈ S
    · have hS' : (S.erase x).Nodup := hS.erase x
      obtain ⟨i1, i2, i3, i4, i5, i6, i7, i8⟩ := ih (S.erase x) hS'
      have hloop : matchLoop (x :: xs) S
          = (x :: (matchLoop xs (S.erase x)).1, (matchLoop xs (S.erase x)).2) := by
        simp [matchLoop, hx]
      rw [hloop]
      refine ⟨List.Sublist.cons₂ x i1, ?_, ?_, ?_, i5, ?_, ?_, ?_⟩
      · intro a ha
        rcases List.mem_cons.mp ha with rfl | ha'
        · exact hx
        · exact List.mem_of_mem_erase (i2 a ha')
      · intro a ha
        exact List.mem_of_mem_erase (i3 a ha)
      · exact List.nodup_cons.mpr ⟨fun hmem => hS.not_mem_erase (i2 x hmem), i4⟩
      · intro a ha
        have hne : a ≠ x := ((hS.mem_erase_iff).mp (i3 a ha)).1
        simp only [List.mem_cons, not_or]
        exact ⟨hne, i6 a ha⟩
      · intro a ha
        by_cases hax : a = x
        · exact Or.inl (by simp [hax])
        · rcases i7 a ((List.mem_erase_of_ne hax).mpr ha) with h | h
          · exact Or.inl (List.mem_cons_of_mem x h)
          · exact Or.inr h
      · intro a ha haL
        by_cases hax : a = x
        · simp [hax]
        · have haxs : a ∈ xs := by
            rcases List.mem_cons.mp haL with rfl | h
            · exact absurd rfl hax
            · exact h
          exact List.mem_cons_of_mem x
            (i8 a ((List.mem_erase_of_ne hax).mpr ha) haxs)
    · obtain ⟨i1, i2, i3, i4, i5, i6, i7, i8⟩ := ih S hS
      have hloop : matchLoop (x :: xs) S = matchLoop xs S := by
        simp [matchLoop, hx]
      rw [hloop]
      refine ⟨List.Sublist.cons x i1, i2, i3, i4, i5, i6, i7, ?_⟩
      intro a ha haL
      rcases List.mem_cons.mp haL with rfl | h
      · exact absurd ha hx
      · exact i8 a ha h

/-- The guarantee of the generic list reconciler: the output splits into a
matched part — a subsequence of the local list — followed by remote-only
items, together holding exactly the remote list's distinct members. -/
theorem matchFirewallLists_spec {α : Type} [DecidableEq α] (L R : List α) :
    ∃ m t, matchFirewallLists L R = m ++ t ∧ List.Sublist m L ∧
      (∀ a ∈ t, a ∉ L) ∧ (∀ a, (a ∈ m ∨ a ∈ t) ↔ a ∈ R) ∧ (m ++ t).Nodup := by
  have hS : (setOfList R).Nodup := setOfList_nodup R
  obtain ⟨i1, i2, i3, i4, i5, i6, i7, i8⟩ := matchLoop_spec L (setOfList R) hS
  refine ⟨(matchLoop L (setOfList R)).1, (matchLoop L (setOfList R)).2, rfl, i1, ?_, ?_, ?_⟩
  · intro a ha haL
    exact i6 a ha (i8 a (i3 a ha) haL)
  · intro a
    rw [← mem_setOfList R a]
    exact ⟨fun h => h.elim (i2 a) (i3 a), i7 a⟩
  · exact i4.append i5 (fun a ham hat => i6 a hat ham)

/-- **C2.** For both list reconcilers, the output consists of exactly the
distinct members of the remote list: the members also present in the
local list come first, as a subsequence of the local list (hence in local
relative order), the remote-only members are appended after them, no
member repeats, and two empty inputs yield an empty output. -/
theorem match_lists_remote_members_ordered :
    (∀ localList remoteList : List String, ∃ m t,
      matchFirewallStringLists localList remoteList = m ++ t ∧
      List.Sublist m localList ∧ (∀ a ∈ t, a ∉ localList) ∧
      (∀ a, (a ∈ m ∨ a ∈ t) ↔ a ∈ remoteList) ∧ (m ++ t).Nodup) ∧
    (∀ localList remoteList : List Int, ∃ m t,
      matchFirewallIntLists localList remoteList = m ++ t ∧
      List.Sublist m localList ∧ (∀ a ∈ t, a ∉ localList) ∧
      (∀ a, (a ∈ m ∨ a ∈ t) ↔ a ∈ remoteList) ∧ (m ++ t).Nodup) ∧
    matchFirewallStringLists [] [] = [] ∧
    matchFirewallIntLists [] [] = [] :=
  ⟨fun L R => matchFirewallLists_spec L R, fun L R => matchFirewallLists_spec L R, rfl, rfl⟩

/-- Membership in an erased map. -/
theorem mem_mapErase {m : List (Nat × Rule)} {k : Nat} {p : Nat × Rule} :
    p ∈ mapErase m k ↔ p ∈ m ∧ p.1 ≠ k := by
  simp [mapErase, List.mem_filter]

/-- Keys of an erased map. -/
theorem mem_mapKeys_mapErase {m : List (Nat × Rule)} {k h : Nat} :
    h ∈ mapKeys (mapErase m k) ↔ h ∈ mapKeys m ∧ h ≠ k := by
  simp only [mapKeys, List.mem_map]
  constructor
  · rintro ⟨p, hp, rfl⟩
    obtain ⟨hpm, hpk⟩ := mem_mapErase.mp hp
    exact ⟨⟨p, hpm, rfl⟩, hpk⟩
  · rintro ⟨⟨p, hpm, rfl⟩, hk⟩
    exact ⟨p, mem_mapErase.mpr ⟨hpm, hk⟩, rfl⟩

/-- Erasure only removes entries. -/
theorem mapErase_sublist (m : List (Nat × Rule)) (k : Nat) :
    List.Sublist (mapErase m k) m :=
  List.filter_sublist m

/-- A successful lookup returns an entry of the map under the looked-up
key. -/
theorem mapLookup_eq_some {m : List (Nat × Rule)} {k : Nat} {v : Rule}
    (hl : mapLookup m k = some v) : (k, v) ∈ m := by
  simp only [mapLookup, Option.map_eq_some'] at hl
  obtain ⟨p, hfind, hv⟩ := hl
  have hk : p.1 = k := by simpa using List.find?_some hfind
  have hm := List.mem_of_find?_eq_some hfind
  have he : (k, v) = p := by cases p; simp_all
  rw [he]; exact hm

/-- Lookup fails exactly on absent keys. -/
theorem mapLookup_eq_none {m : List (Nat × Rule)} {k : Nat} :
    mapLookup m k = none ↔ k ∉ mapKeys m := by
  simp only [mapLookup, Option.map_eq_none', List.find?_eq_none, mapKeys, List.mem_map,
    decide_eq_true_eq]
  constructor
  · rintro hall ⟨p, hp, rfl⟩
    exact hall p hp rfl
  · intro hk p hp he
    exact hk ⟨p, hp, he⟩

/-- A present key has a lookup value. -/
theorem mapLookup_isSome_of_mem {m : List (Nat × Rule)} {k : Nat}
    (h : k ∈ mapKeys m) : ∃ v, mapLookup m k = some v := by
  cases hl : mapLookup m k with
  | none => exact absurd h (mapLookup_eq_none.mp hl)
  | some v => exact ⟨v, rfl⟩

/-- Lookup on a cons cell. -/
theorem mapLookup_cons (p : Nat × Rule) (m : List (Nat × Rule)) (k : Nat) :
    mapLookup (p :: m) k = if p.1 = k then some p.2 else mapLookup m k := by
  by_cases h : p.1 = k
  · simp only [mapLookup]
    rw [List.find?_cons_of_pos _ (by simp [h]), if_pos h]
    simp
  · simp only [mapLookup]
    rw [List.find?_cons_of_neg _ (by simp [h]), if_neg h]

/-- Erasure on a cons cell. -/
theorem mapErase_cons (p : Nat × Rule) (m : List (Nat × Rule)) (k : Nat) :
    mapErase (p :: m) k = if p.1 = k then mapErase m k else p :: mapErase m k := by
  by_cases h : p.1 = k <;> simp [mapErase, List.filter_cons, h]

/-- Erasing one key leaves lookups of other keys unchanged. -/
theorem mapLookup_mapErase_ne (m : List (Nat × Rule)) {k h : Nat} (hne : h ≠ k) :
    mapLookup (mapErase m k) h = mapLookup m h := by
  induction m with
  | nil => rfl
  | cons p rest ih =>
    rw [mapErase_cons]
    by_cases hpk : p.1 = k
    · rw [if_pos hpk, ih, mapLookup_cons, if_neg (fun (hh : p.1 = h) => hne (hh ▸ hpk))]
    · rw [if_neg hpk, mapLookup_cons, mapLookup_cons, ih]

/-- Membership in a map after insertion. -/
theorem mem_mapInsert {m : List (Nat × Rule)} {k : Nat} {v : Rule} {p : Nat × Rule} :
    p ∈ mapInsert m k v ↔ (p ∈ m ∧ p.1 ≠ k) ∨ p = (k, v) := by
  simp [mapInsert, mem_mapErase]

/-- Keys after insertion. -/
theorem mem_mapKeys_mapInsert {m : List (Nat × Rule)} {k v : _} {h : Nat} :
    h ∈ mapKeys (mapInsert m k v) ↔ h ∈ mapKeys m ∨ h = k := by
  simp only [mapInsert, mapKeys, List.map_append, List.mem_append, List.map_cons,
    List.map_nil, List.mem_singleton]
  constructor
  · rintro (hh | rfl)
    · exact Or.inl (mem_mapKeys_mapErase.mp hh).1
    · exact Or.inr rfl
  · rintro (hh | rfl)
    · by_cases hk : h = k
      · exact Or.inr hk
      · exact Or.inl (mem_mapKeys_mapErase.mpr ⟨hh, hk⟩)
    · exact Or.inr rfl

/-- Insertion keeps the keys duplicate-free. -/
theorem mapKeys_mapInsert_nodup {m : List (Nat × Rule)} {k : Nat} {v : Rule}
    (hm : (mapKeys m).Nodup) : (mapKeys (mapInsert m k v)).Nodup := by
  have h1 : (mapKeys (mapErase m k)).Nodup :=
    (((mapErase_sublist m k).map _)).nodup hm
  have h2 : k ∉ mapKeys (mapErase m k) := fun hc => (mem_mapKeys_mapErase.mp hc).2 rfl
  simp only [mapInsert, mapKeys, List.map_append, List.map_cons, List.map_nil]
  exact List.Nodup.append h1 (List.nodup_cons.mpr (by simp))
    (fun a ha hb => h2 (by rwa [List.mem_singleton.mp hb] at ha))

/-- Facts about the fold building the remote map, generalized over the
accumulator. -/
theorem buildRemoteMap_aux (rs : List Rule) :
    ∀ m : List (Nat × Rule), (mapKeys m).Nodup →
      (∀ p ∈ rs.foldl (fun mm r => mapInsert mm (fpRule r) r) m,
        p ∈ m ∨ (fpRule p.2 = p.1 ∧ p.2 ∈ rs)) ∧
      (mapKeys (rs.foldl (fun mm r => mapInsert mm (fpRule r) r) m)).Nodup ∧
      (∀ k, k ∈ mapKeys (rs.foldl (fun mm r => mapInsert mm (fpRule r) r) m) ↔
        k ∈ mapKeys m ∨ k ∈ rs.map fpRule) := by
  induction rs with
  | nil => intro m hm; simp [hm]
  | cons r rest ih =>
    intro m hm
    have hm' : (mapKeys (mapInsert m (fpRule r) r)).Nodup := mapKeys_mapInsert_nodup hm
    obtain ⟨j1, j2, j3⟩ := ih (mapInsert m (fpRule r) r) hm'
    rw [List.foldl_cons]
    refine ⟨?_, j2, ?_⟩
    · intro p hp
      rcases j1 p hp with hmem | ⟨hfp, hmem⟩
      · rcases mem_mapInsert.mp hmem with ⟨hpm, _⟩ | rfl
        · exact Or.inl hpm
        · exact Or.inr ⟨rfl, List.mem_cons_self _ _⟩
      · exact Or.inr ⟨hfp, List.mem_cons_of_mem _ hmem⟩
    · intro k
      rw [j3 k, mem_mapKeys_mapInsert]
      simp only [List.map_cons, List.mem_cons]
      tauto

/-- The remote map's entries are remote rules keyed by their fingerprint,
its keys are duplicate-free, and its key set is the remote fingerprint
set. -/
theorem buildRemoteMap_facts (rs : List Rule) :
    (∀ p ∈ buildRemoteMap rs, fpRule p.2 = p.1 ∧ p.2 ∈ rs) ∧
    (mapKeys (buildRemoteMap rs)).Nodup ∧
    (∀ k, k ∈ mapKeys (buildRemoteMap rs) ↔ k ∈ rs.map fpRule) := by
  obtain ⟨j1, j2, j3⟩ := buildRemoteMap_aux rs [] (by simp [mapKeys])
  unfold buildRemoteMap
  refine ⟨fun p hp => ?_, j2, fun k => ?_⟩
  · rcases j1 p hp with h | h
    · simp at h
    · exact h
  · rw [j3 k]; simp [mapKeys]

/-- A merged rule keeps the local rule's fingerprint. -/
theorem fpRule_mergeRule (a b : Rule) : fpRule (mergeRule a b) = fpRule a := rfl

/-- The scan step on a fingerprint miss. -/
theorem flattenLoop_cons_none {r : Rule} {rest : List Rule} {m : List (Nat × Rule)}
    (h : mapLookup m (fpRule r) = none) :
    flattenLoop (r :: rest) m = flattenLoop rest m := by
  simp [flattenLoop, h]

/-- The scan step on a fingerprint hit. -/
theorem flattenLoop_cons_some {r : Rule} {rest : List Rule} {m : List (Nat × Rule)} {rr : Rule}
    (h : mapLookup m (fpRule r) = some rr) :
    flattenLoop (r :: rest) m =
      (mergeRule r rr :: (flattenLoop rest (mapErase m (fpRule r))).1,
        (flattenLoop rest (mapErase m (fpRule r))).2) := by
  simp [flattenLoop, h]

/-- The invariants of the local-rule scan over a map with duplicate-free
keys: emitted fingerprints are duplicate-free keys of the map, the leftover
map is a sub-map disjoint from the emitted fingerprints, every key is
either emitted or left over, and every emitted rule takes its identity key
from some local rule whose fingerprint is a key. -/
theorem flattenLoop_facts (L : List Rule) :
    ∀ m : List (Nat × Rule), (mapKeys m).Nodup →
      (((flattenLoop L m).1.map fpRule).Nodup) ∧
      (∀ h ∈ (flattenLoop L m).1.map fpRule, h ∈ mapKeys m) ∧
      (∀ p ∈ (flattenLoop L m).2, p ∈ m) ∧
      ((mapKeys (flattenLoop L m).2).Nodup) ∧
      (∀ p ∈ (flattenLoop L m).2, p.1 ∉ (flattenLoop L m).1.map fpRule) ∧
      (∀ h ∈ mapKeys m, h ∈ (flattenLoop L m).1.map fpRule ∨ h ∈ mapKeys (flattenLoop L m).2) ∧
      (∀ w ∈ (flattenLoop L m).1,
        ∃ r ∈ L, w.protocol = r.protocol ∧ w.portRange = r.portRange ∧ fpRule r ∈ mapKeys m) := by
  induction L with
  | nil => intro m hm; simp [flattenLoop, hm]
  | cons r rest ih =>
    intro m hm
    cases hl : mapLookup m (fpRule r) with
    | none =>
      rw [flattenLoop_cons_none hl]
      obtain ⟨i1, i2, i3, i4, i5, i6, i7⟩ := ih m hm
      refine ⟨i1, i2, i3, i4, i5, i6, ?_⟩
      intro w hw
      obtain ⟨q, hq, e1, e2, e3⟩ := i7 w hw
      exact ⟨q, List.mem_cons_of_mem _ hq, e1, e2, e3⟩
    | some rr =>
      rw [flattenLoop_cons_some hl]
      have hkey : fpRule r ∈ mapKeys m :=
        List.mem_map.mpr ⟨(fpRule r, rr), mapLookup_eq_some hl, rfl⟩
      have hm' : (mapKeys (mapErase m (fpRule r))).Nodup :=
        ((mapErase_sublist m (fpRule r)).map _).nodup hm
      obtain ⟨i1, i2, i3, i4, i5, i6, i7⟩ := ih (mapErase m (fpRule r)) hm'
      refine ⟨?_, ?_, ?_, i4, ?_, ?_, ?_⟩
      · simp only [List.map_cons, fpRule_mergeRule, List.nodup_cons]
        exact ⟨fun hc => (mem_mapKeys_mapErase.mp (i2 _ hc)).2 rfl, i1⟩
      · intro h hh
        simp only [List.map_cons, fpRule_mergeRule, List.mem_cons] at hh
        rcases hh with rfl | hh
        · exact hkey
        · exact (mem_mapKeys_mapErase.mp (i2 h hh)).1
      · intro p hp
        exact (mem_mapErase.mp (i3 p hp)).1
      · intro p hp
        simp only [List.map_cons, fpRule_mergeRule, List.mem_cons, not_or]
        exact ⟨(mem_mapErase.mp (i3 p hp)).2, i5 p hp⟩
      · intro h hh
        by_cases hr : h = fpRule r
        · subst hr
          exact Or.inl (by simp [fpRule_mergeRule])
        · rcases i6 h (mem_mapKeys_mapErase.mpr ⟨hh, hr⟩) with hc | hc
          · exact Or.inl (by
              simp only [List.map_cons, fpRule_mergeRule, List.mem_cons]
              exact Or.inr hc)
          · exact Or.inr hc
      · intro w hw
        rcases List.mem_cons.mp hw with rfl | hw
        · exact ⟨r, List.mem_cons_self _ _, rfl, rfl, hkey⟩
        · obtain ⟨q, hq, e1, e2, e3⟩ := i7 w hw
          exact ⟨q, List.mem_cons_of_mem _ hq, e1, e2, (mem_mapKeys_mapErase.mp e3).1⟩

/-- Empty-local fast path, as a reusable lemma. -/
theorem flattenInbound_local_nil (remote : List Rule) :
    flattenFirewallInboundRules [] remote = remote := by
  cases remote <;> simp [flattenFirewallInboundRules]

/-- Empty-remote fast path, as a reusable lemma. -/
theorem flattenInbound_remote_nil (localRules : List Rule) :
    flattenFirewallInboundRules localRules [] = [] := by
  simp [flattenFirewallInboundRules]

/-- The outbound flatten function computes the same list as the inbound
one: its body is the inbound body minus a redundant nil check. -/
theorem flattenOutbound_eq_inbound (localRules rules : List Rule) :
    flattenFirewallOutboundRules localRules rules
      = flattenFirewallInboundRules localRules rules := by
  cases rules <;> simp [flattenFirewallOutboundRules, flattenFirewallInboundRules]

/-- On non-empty inputs the inbound flatten runs the scan and appends the
leftover remote-only rules. -/
theorem flattenInbound_main (localRules rules : List Rule)
    (h1 : localRules ≠ []) (h2 : rules ≠ []) :
    flattenFirewallInboundRules localRules rules
      = (flattenLoop localRules (buildRemoteMap rules)).1
        ++ mapValues (flattenLoop localRules (buildRemoteMap rules)).2 := by
  have e1 : rules.isEmpty = false := by
    cases rules
    · exact absurd rfl h2
    · rfl
  have e2 : localRules.isEmpty = false := by
    cases localRules
    · exact absurd rfl h1
    · rfl
  simp [flattenFirewallInboundRules, e1, e2]

/-- Main-path guarantees of the inbound flatten: output fingerprints are
duplicate-free; every output rule either takes its identity key from a
local rule whose fingerprint occurs remotely, or is a remote rule
verbatim; and every remote fingerprint appears in the output. -/
theorem flatten_main_facts (localRules rules : List Rule)
    (h1 : localRules ≠ []) (h2 : rules ≠ []) :
    (((flattenFirewallInboundRules localRules rules).map fpRule).Nodup) ∧
    (∀ w ∈ flattenFirewallInboundRules localRules rules,
      (∃ r ∈ localRules, w.protocol = r.protocol ∧ w.portRange = r.portRange ∧
        fpRule r ∈ rules.map fpRule) ∨ w ∈ rules) ∧
    (∀ q ∈ rules, ∃ w ∈ flattenFirewallInboundRules localRules rules,
      fpRule w = fpRule q) := by
  obtain ⟨b1, b2, b3⟩ := buildRemoteMap_facts rules
  obtain ⟨i1, i2, i3, i4, i5, i6, i7⟩ := flattenLoop_facts localRules (buildRemoteMap rules) b2
  rw [flattenInbound_main localRules rules h1 h2]
  have hvals : (mapValues (flattenLoop localRules (buildRemoteMap rules)).2).map fpRule
      = mapKeys (flattenLoop localRules (buildRemoteMap rules)).2 := by
    simp only [mapValues, mapKeys, List.map_map]
    exact List.map_congr_left (fun p hp => (b1 p (i3 p hp)).1)
  refine ⟨?_, ?_, ?_⟩
  · rw [List.map_append, hvals]
    refine i1.append i4 (fun h hms hm2 => ?_)
    obtain ⟨p, hp, rfl⟩ := List.mem_map.mp hm2
    exact i5 p hp hms
  · intro w hw
    rcases List.mem_append.mp hw with hw | hw
    · obtain ⟨r, hr, e1, e2, e3⟩ := i7 w hw
      exact Or.inl ⟨r, hr, e1, e2, (b3 _).mp e3⟩
    · obtain ⟨p, hp, rfl⟩ := List.mem_map.mp hw
      exact Or.inr (b1 p (i3 p hp)).2
  · intro q hq
    have hk : fpRule q ∈ mapKeys (buildRemoteMap rules) :=
      (b3 _).mpr (List.mem_map_of_mem _ hq)
    rcases i6 _ hk with hc | hc
    · obtain ⟨w, hw, he⟩ := List.mem_map.mp hc
      exact ⟨w, List.mem_append.mpr (Or.inl hw), he⟩
    · obtain ⟨p, hp, he⟩ := List.mem_map.mp hc
      refine ⟨p.2, List.mem_append.mpr (Or.inr (List.mem_map_of_mem _ hp)), ?_⟩
      rw [(b1 p (i3 p hp)).1, he]

/-- Fingerprints only depend on the identity key. -/
theorem fpRule_congr {w r : Rule} (e1 : w.protocol = r.protocol)
    (e2 : w.portRange = r.portRange) : fpRule w = fpRule r := by
  simp [fpRule, e1, e2]

/-- **C1 counterexample.** Distinct (protocol, port_range) pairs can share
a fingerprint, because the hash is taken over `protocol ++ "-" ++
portRange`: the local pair `("a","b-c")` and the remote pair `("a-b","c")`
both hash the string `"a-b-c"`.  Reconciling them loses the remote pair
and invents a pair absent from the remote list. -/
theorem flatten_pairs_not_exact_cex :
    (("a-b", "c") ∈ ([ruleAmbig2] : List Rule).map pairOf) ∧
    (("a-b", "c") ∉ (flattenFirewallInboundRules [ruleAmbig1] [ruleAmbig2]).map pairOf) ∧
    (("a", "b-c") ∈ (flattenFirewallInboundRules [ruleAmbig1] [ruleAmbig2]).map pairOf) ∧
    (("a", "b-c") ∉ ([ruleAmbig2] : List Rule).map pairOf) := by
  decide

/-- **C1 (amended).** Provided the fingerprint function is injective on
the (protocol, port_range) pairs occurring in the local and remote lists,
and the remote list's pairs are pairwise distinct, the multiset of
(protocol, port_range) pairs of the reconciled output is a permutation of
the remote list's pairs — no remote pair is lost, none appears twice, and
none is invented — for both rule directions. -/
theorem flatten_pairs_exact_of_fp_injective (localRules remote : List Rule)
    (hinj : ∀ r ∈ localRules ++ remote, ∀ q ∈ localRules ++ remote,
      fpRule r = fpRule q → pairOf r = pairOf q)
    (hnd : (remote.map pairOf).Nodup) :
    List.Perm ((flattenFirewallInboundRules localRules remote).map pairOf)
      (remote.map pairOf) ∧
    List.Perm ((flattenFirewallOutboundRules localRules remote).map pairOf)
      (remote.map pairOf) := by
  suffices h : List.Perm ((flattenFirewallInboundRules localRules remote).map pairOf)
      (remote.map pairOf) by
    exact ⟨h, by rw [flattenOutbound_eq_inbound]; exact h⟩
  by_cases h1 : localRules = []
  · subst h1
    rw [flattenInbound_local_nil]
  by_cases h2 : remote = []
  · subst h2
    rw [flattenInbound_remote_nil]
  obtain ⟨f1, f2, f3⟩ := flatten_main_facts localRules remote h1 h2
  have hfp_pair : (flattenFirewallInboundRules localRules remote).map fpRule
      = ((flattenFirewallInboundRules localRules remote).map pairOf).map
          (fun p => hashFirewallRule p.1 p.2) := by
    rw [List.map_map]; rfl
  have hndout : ((flattenFirewallInboundRules localRules remote).map pairOf).Nodup :=
    List.Nodup.of_map _ (by rw [← hfp_pair]; exact f1)
  rw [List.perm_ext_iff_of_nodup hndout hnd]
  intro p
  constructor
  · intro hp
    obtain ⟨w, hw, rfl⟩ := List.mem_map.mp hp
    rcases f2 w hw with ⟨r, hr, e1, e2, e3⟩ | hw'
    · obtain ⟨q, hq, he⟩ := List.mem_map.mp e3
      have hpair : pairOf r = pairOf q :=
        hinj r (List.mem_append.mpr (Or.inl hr)) q (List.mem_append.mpr (Or.inr hq)) he.symm
      have hwp : pairOf w = pairOf r := by simp [pairOf, e1, e2]
      rw [hwp, hpair]
      exact List.mem_map_of_mem _ hq
    · exact List.mem_map_of_mem _ hw'
  · intro hp
    obtain ⟨q, hq, rfl⟩ := List.mem_map.mp hp
    obtain ⟨w, hw, he⟩ := f3 q hq
    have hqmem : q ∈ localRules ++ remote := List.mem_append.mpr (Or.inr hq)
    rcases f2 w hw with ⟨r, hr, e1, e2, _⟩ | hw'
    · have hfr : fpRule r = fpRule q := by rw [← fpRule_congr e1 e2, he]
      have hpair : pairOf r = pairOf q :=
        hinj r (List.mem_append.mpr (Or.inl hr)) q hqmem hfr
      have hwp : pairOf w = pairOf r := by simp [pairOf, e1, e2]
      rw [← hpair, ← hwp]
      exact List.mem_map_of_mem _ hw
    · have hpair : pairOf w = pairOf q :=
        hinj w (List.mem_append.mpr (Or.inr hw')) q hqmem he
      rw [← hpair]
      exact List.mem_map_of_mem _ hw

/-- Witness for `flatten_pairs_exact_of_fp_injective` at a concrete
local/remote pair with drift. -/
theorem flatten_pairs_exact_witness :
    (∀ r ∈ [ruleTcp80] ++ [ruleTcp80, ruleTcp22],
      ∀ q ∈ [ruleTcp80] ++ [ruleTcp80, ruleTcp22],
      fpRule r = fpRule q → pairOf r = pairOf q) ∧
    (([ruleTcp80, ruleTcp22].map pairOf).Nodup) ∧
    List.Perm ((flattenFirewallInboundRules [ruleTcp80] [ruleTcp80, ruleTcp22]).map pairOf)
      ([ruleTcp80, ruleTcp22].map pairOf) :=
  ⟨by decide, by decide,
    (flatten_pairs_exact_of_fp_injective [ruleTcp80] [ruleTcp80, ruleTcp22]
      (by decide) (by decide)).1⟩

/-- Folding `setInsert` over fresh, duplicate-free items appends them. -/
theorem setOfList_aux_self {α : Type} [DecidableEq α] :
    ∀ (l acc : List α), (∀ a ∈ l, a ∉ acc) → l.Nodup →
      l.foldl setInsert acc = acc ++ l := by
  intro l
  induction l with
  | nil => intro acc _ _; simp
  | cons x xs ih =>
    intro acc hdisj hnd
    rw [List.foldl_cons]
    have hx : x ∉ acc := hdisj x (List.mem_cons_self _ _)
    have hins : setInsert acc x = acc ++ [x] := by simp [setInsert, hx]
    rw [hins, ih (acc ++ [x]) ?_ (List.nodup_cons.mp hnd).2]
    · simp
    · intro a ha
      simp only [List.mem_append, List.mem_singleton, not_or]
      exact ⟨hdisj a (List.mem_cons_of_mem _ ha),
        fun he => (List.nodup_cons.mp hnd).1 (he ▸ ha)⟩

/-- The set of a duplicate-free list is the list itself. -/
theorem setOfList_self {α : Type} [DecidableEq α] (l : List α) (h : l.Nodup) :
    setOfList l = l := by
  rw [setOfList, setOfList_aux_self l [] (by simp) h]
  simp

/-- Scanning a duplicate-free list against itself matches everything. -/
theorem matchLoop_self {α : Type} [DecidableEq α] :
    ∀ l : List α, l.Nodup → matchLoop l l = (l, []) := by
  intro l
  induction l with
  | nil => intro _; rfl
  | cons x xs ih =>
    intro hnd
    have hx : x ∈ x :: xs := List.mem_cons_self _ _
    simp only [matchLoop, if_pos hx, List.erase_cons_head]
    rw [ih (List.nodup_cons.mp hnd).2]

/-- Reconciling a duplicate-free list against itself is the identity. -/
theorem matchFirewallLists_self {α : Type} [DecidableEq α] (l : List α) (h : l.Nodup) :
    matchFirewallLists l l = l := by
  have hdef : matchFirewallLists l l
      = (matchLoop l (setOfList l)).1 ++ (matchLoop l (setOfList l)).2 := rfl
  rw [hdef, setOfList_self l h, matchLoop_self l h]
  simp

/-- Merging a rule with itself is the identity when its party lists are
duplicate-free. -/
theorem mergeRule_self (r : Rule) (h1 : r.dropletIDs.Nodup) (h2 : r.tags.Nodup)
    (h3 : r.addresses.Nodup) (h4 : r.loadBalancerUIDs.Nodup) : mergeRule r r = r := by
  cases r
  simp only [mergeRule, matchFirewallIntLists, matchFirewallStringLists] at *
  simp [matchFirewallLists_self _ h1, matchFirewallLists_self _ h2,
    matchFirewallLists_self _ h3, matchFirewallLists_self _ h4]

/-- Inserting a fresh key appends the entry. -/
theorem mapInsert_fresh {m : List (Nat × Rule)} {k : Nat} {v : Rule}
    (h : k ∉ mapKeys m) : mapInsert m k v = m ++ [(k, v)] := by
  unfold mapInsert mapErase
  rw [List.filter_eq_self.mpr]
  intro p hp
  simp only [decide_eq_true_eq]
  exact fun he => h (List.mem_map.mpr ⟨p, hp, he⟩)

/-- Building the remote map from rules with duplicate-free fingerprints
lists the rules, keyed by fingerprint, in order. -/
theorem buildRemoteMap_nodup_aux :
    ∀ (rs : List Rule) (m : List (Nat × Rule)),
      (∀ r ∈ rs, fpRule r ∉ mapKeys m) → (rs.map fpRule).Nodup →
      rs.foldl (fun mm r => mapInsert mm (fpRule r) r) m
        = m ++ rs.map (fun r => (fpRule r, r)) := by
  intro rs
  induction rs with
  | nil => intro m _ _; simp
  | cons r rest ih =>
    intro m hfresh hnd
    obtain ⟨hnd1, hnd2⟩ : (∀ x ∈ rest, ¬fpRule x = fpRule r) ∧ (rest.map fpRule).Nodup := by
      simpa using hnd
    rw [List.foldl_cons, mapInsert_fresh (hfresh r (List.mem_cons_self _ _)),
      ih (m ++ [(fpRule r, r)]) ?_ hnd2]
    · simp
    · intro q hq
      simp only [mapKeys, List.map_append, List.mem_append, not_or, List.map_cons,
        List.map_nil, List.mem_singleton]
      refine ⟨fun hc => hfresh q (List.mem_cons_of_mem _ hq) (List.mem_map.mpr ?_), fun he => ?_⟩
      · obtain ⟨p, hp, hpe⟩ := List.mem_map.mp hc
        exact ⟨p, hp, hpe⟩
      · exact hnd1 q hq he

/-- `buildRemoteMap` on duplicate-free fingerprints. -/
theorem buildRemoteMap_nodup_eq (rs : List Rule) (h : (rs.map fpRule).Nodup) :
    buildRemoteMap rs = rs.map (fun r => (fpRule r, r)) := by
  unfold buildRemoteMap
  rw [buildRemoteMap_nodup_aux rs [] (by simp [mapKeys]) h]
  simp

/-- In the self-map of a fingerprint-duplicate-free rule list, each rule's
fingerprint looks up that rule. -/
theorem mapLookup_map_pair_self :
    ∀ (X : List Rule), (X.map fpRule).Nodup → ∀ r ∈ X,
      mapLookup (X.map (fun q => (fpRule q, q))) (fpRule r) = some r := by
  intro X
  induction X with
  | nil => intro _ r hr; simp at hr
  | cons q rest ih =>
    intro hnd r hr
    obtain ⟨hnd1, hnd2⟩ : (∀ x ∈ rest, ¬fpRule x = fpRule q) ∧ (rest.map fpRule).Nodup := by
      simpa using hnd
    rw [List.map_cons, mapLookup_cons]
    rcases List.mem_cons.mp hr with rfl | hr'
    · simp
    · have hne : (fpRule q, q).1 ≠ fpRule r := by
        intro he
        exact hnd1 r hr' he.symm
      rw [if_neg hne]
      exact ih hnd2 r hr'

/-- The scan of a list against a map that sends each of its (pairwise
fingerprint-distinct, duplicate-free-fielded) rules to itself matches every
rule unchanged. -/
theorem flattenLoop_self :
    ∀ (l : List Rule) (m : List (Nat × Rule)),
      (l.map fpRule).Nodup →
      (∀ r ∈ l, mapLookup m (fpRule r) = some r) →
      (∀ r ∈ l, r.dropletIDs.Nodup ∧ r.tags.Nodup ∧ r.addresses.Nodup ∧
        r.loadBalancerUIDs.Nodup) →
      flattenLoop l m = (l, l.foldl (fun mm r => mapErase mm (fpRule r)) m) := by
  intro l
  induction l with
  | nil => intro m _ _ _; rfl
  | cons r rest ih =>
    intro m hnd hlk hfields
    obtain ⟨hnd1, hnd2⟩ : (∀ x ∈ rest, ¬fpRule x = fpRule r) ∧ (rest.map fpRule).Nodup := by
      simpa using hnd
    have hl : mapLookup m (fpRule r) = some r := hlk r (List.mem_cons_self _ _)
    rw [flattenLoop_cons_some hl]
    obtain ⟨d1, d2, d3, d4⟩ := hfields r (List.mem_cons_self _ _)
    have hrest : flattenLoop rest (mapErase m (fpRule r))
        = (rest, rest.foldl (fun mm q => mapErase mm (fpRule q)) (mapErase m (fpRule r))) := by
      refine ih (mapErase m (fpRule r)) hnd2 ?_ ?_
      · intro q hq
        have hne : fpRule q ≠ fpRule r := hnd1 q hq
        rw [mapLookup_mapErase_ne m hne]
        exact hlk q (List.mem_cons_of_mem _ hq)
      · intro q hq; exact hfields q (List.mem_cons_of_mem _ hq)
    rw [hrest, mergeRule_self r d1 d2 d3 d4]
    simp [List.foldl_cons]

/-- Erasing every fingerprint of a covering list empties the map. -/
theorem eraseFold_nil :
    ∀ (l : List Rule) (m : List (Nat × Rule)),
      (∀ p ∈ m, p.1 ∈ l.map fpRule) →
      l.foldl (fun mm r => mapErase mm (fpRule r)) m = [] := by
  intro l
  induction l with
  | nil =>
    intro m hm
    simp only [List.foldl_nil]
    rw [List.eq_nil_iff_forall_not_mem]
    intro p hp
    simpa using hm p hp
  | cons r rest ih =>
    intro m hm
    rw [List.foldl_cons]
    refine ih (mapErase m (fpRule r)) ?_
    intro p hp
    obtain ⟨hpm, hpne⟩ := mem_mapErase.mp hp
    have hin := hm p hpm
    simp only [List.map_cons, List.mem_cons] at hin
    rcases hin with he | hrest
    · exact absurd he hpne
    · exact hrest

/-- **C3 counterexample.** Reconciling a rule list against itself is not
the identity on party-set fields: a duplicated droplet ID collapses,
because the per-field reconciler works on a set of the remote values. -/
theorem reconcile_self_not_identity_cex :
    ((flattenFirewallInboundRules [ruleDupIDs] [ruleDupIDs]).map
        (fun r => r.dropletIDs) = [[1]]) ∧
    ([ruleDupIDs].map (fun r => r.dropletIDs) = [[1, 1]]) ∧
    flattenFirewallInboundRules [ruleDupIDs] [ruleDupIDs] ≠ [ruleDupIDs] := by
  decide

/-- **C3 (amended).** Provided the rule list's fingerprints are pairwise
distinct and every rule's party-set lists are duplicate-free, reconciling
the list against itself returns it exactly (same pairs, same field
contents), in both rule directions. -/
theorem reconcile_self_identity_of_nodup (X : List Rule)
    (hfp : (X.map fpRule).Nodup)
    (hfields : ∀ r ∈ X, r.dropletIDs.Nodup ∧ r.tags.Nodup ∧ r.addresses.Nodup ∧
      r.loadBalancerUIDs.Nodup) :
    flattenFirewallInboundRules X X = X ∧ flattenFirewallOutboundRules X X = X := by
  suffices h : flattenFirewallInboundRules X X = X by
    exact ⟨h, by rw [flattenOutbound_eq_inbound]; exact h⟩
  by_cases hX : X = []
  · subst hX; rfl
  rw [flattenInbound_main X X hX hX]
  have hmap : buildRemoteMap X = X.map (fun r => (fpRule r, r)) :=
    buildRemoteMap_nodup_eq X hfp
  have hlk : ∀ r ∈ X, mapLookup (buildRemoteMap X) (fpRule r) = some r := by
    rw [hmap]; exact mapLookup_map_pair_self X hfp
  have hall : ∀ p ∈ buildRemoteMap X, p.1 ∈ X.map fpRule := by
    intro p hp
    rw [hmap] at hp
    obtain ⟨r, hr, rfl⟩ := List.mem_map.mp hp
    exact List.mem_map_of_mem fpRule hr
  rw [flattenLoop_self X (buildRemoteMap X) hfp hlk hfields]
  rw [eraseFold_nil X (buildRemoteMap X) hall]
  simp [mapValues]

/-- Witness for `reconcile_self_identity_of_nodup` at a concrete
two-rule list. -/
theorem reconcile_self_identity_witness :
    (([ruleTcp80, ruleTcp22].map fpRule).Nodup) ∧
    (∀ r ∈ [ruleTcp80, ruleTcp22], r.dropletIDs.Nodup ∧ r.tags.Nodup ∧
      r.addresses.Nodup ∧ r.loadBalancerUIDs.Nodup) ∧
    flattenFirewallInboundRules [ruleTcp80, ruleTcp22] [ruleTcp80, ruleTcp22]
      = [ruleTcp80, ruleTcp22] :=
  ⟨by decide, by decide,
    (reconcile_self_identity_of_nodup [ruleTcp80, ruleTcp22] (by decide) (by decide)).1⟩

/-- If a local rule's fingerprint is a key and no earlier local rule shares
it, the scan emits the merge of that (first) occurrence with the mapped
remote rule. -/
theorem flattenLoop_first :
    ∀ (pre : List Rule) (r : Rule) (rest : List Rule) (m : List (Nat × Rule)),
      (∀ q ∈ pre, fpRule q ≠ fpRule r) → fpRule r ∈ mapKeys m →
      ∃ rr, mapLookup m (fpRule r) = some rr ∧
        mergeRule r rr ∈ (flattenLoop (pre ++ r :: rest) m).1 := by
  intro pre
  induction pre with
  | nil =>
    intro r rest m _ hk
    obtain ⟨rr, hrr⟩ := mapLookup_isSome_of_mem hk
    refine ⟨rr, hrr, ?_⟩
    rw [List.nil_append, flattenLoop_cons_some hrr]
    exact List.mem_cons_self _ _
  | cons q pre2 ih =>
    intro r rest m hpre hk
    have hqr : fpRule q ≠ fpRule r := hpre q (List.mem_cons_self _ _)
    have hpre2 : ∀ x ∈ pre2, fpRule x ≠ fpRule r :=
      fun x hx => hpre x (List.mem_cons_of_mem _ hx)
    rw [List.cons_append]
    cases hl : mapLookup m (fpRule q) with
    | none =>
      rw [flattenLoop_cons_none hl]
      exact ih r rest m hpre2 hk
    | some qq =>
      rw [flattenLoop_cons_some hl]
      have hk2 : fpRule r ∈ mapKeys (mapErase m (fpRule q)) :=
        mem_mapKeys_mapErase.mpr ⟨hk, fun he => hqr he.symm⟩
      obtain ⟨rr, hrr, hmem⟩ := ih r rest (mapErase m (fpRule q)) hpre2 hk2
      rw [mapLookup_mapErase_ne m (fun he => hqr he.symm)] at hrr
      exact ⟨rr, hrr, List.mem_cons_of_mem _ hmem⟩

/-- **C10 counterexample.** With an empty local list the flatten fast path
returns the remote list verbatim, so a remote list repeating a
(protocol, port_range) key yields an output with two rules of the same
fingerprint. -/
theorem flatten_duplicate_fingerprint_cex :
    ¬ (((flattenFirewallInboundRules [] [ruleTcp80, ruleTcp80]).map fpRule).Nodup) := by
  decide

/-- **C10 (amended).** Whenever the local list is non-empty, the
reconciled output's fingerprints are pairwise distinct (for both rule
directions); and when the local list contains a later rule `r2` sharing
the fingerprint of an earlier rule `r` that matches a remote rule, the
output contains the merge of the first occurrence `r` with the mapped
remote rule, exactly once for that fingerprint — the later duplicate is
dropped. -/
theorem flatten_first_occurrence_nodup :
    (∀ localRules remote : List Rule, localRules ≠ [] →
      (((flattenFirewallInboundRules localRules remote).map fpRule).Nodup) ∧
      (((flattenFirewallOutboundRules localRules remote).map fpRule).Nodup)) ∧
    (∀ (pre : List Rule) (r : Rule) (mid : List Rule) (r2 : Rule) (post remote : List Rule),
      fpRule r2 = fpRule r → (∀ q ∈ pre, fpRule q ≠ fpRule r) →
      fpRule r ∈ remote.map fpRule →
      ∃ rr, mapLookup (buildRemoteMap remote) (fpRule r) = some rr ∧
        mergeRule r rr ∈ flattenFirewallInboundRules (pre ++ r :: mid ++ r2 :: post) remote ∧
        List.count (fpRule r)
          ((flattenFirewallInboundRules (pre ++ r :: mid ++ r2 :: post) remote).map fpRule)
          = 1) := by
  have hnodup : ∀ localRules remote : List Rule, localRules ≠ [] →
      ((flattenFirewallInboundRules localRules remote).map fpRule).Nodup := by
    intro localRules remote h1
    by_cases h2 : remote = []
    · subst h2; rw [flattenInbound_remote_nil]; simp
    · exact (flatten_main_facts localRules remote h1 h2).1
  constructor
  · intro localRules remote h1
    refine ⟨hnodup localRules remote h1, ?_⟩
    rw [flattenOutbound_eq_inbound]
    exact hnodup localRules remote h1
  · intro pre r mid r2 post remote hfp2 hpre hkr
    have h2 : remote ≠ [] := by
      intro he; rw [he] at hkr; simp at hkr
    have h1 : pre ++ r :: mid ++ r2 :: post ≠ [] := by simp
    have hk : fpRule r ∈ mapKeys (buildRemoteMap remote) :=
      ((buildRemoteMap_facts remote).2.2 _).mpr hkr
    obtain ⟨rr, hrr, hmem⟩ :=
      flattenLoop_first pre r (mid ++ r2 :: post) (buildRemoteMap remote) hpre hk
    rw [show pre ++ r :: (mid ++ r2 :: post) = pre ++ r :: mid ++ r2 :: post from by simp] at hmem
    have hin : mergeRule r rr
        ∈ flattenFirewallInboundRules (pre ++ r :: mid ++ r2 :: post) remote := by
      rw [flattenInbound_main _ remote h1 h2]
      exact List.mem_append.mpr (Or.inl hmem)
    refine ⟨rr, hrr, hin, ?_⟩
    have hfpin : fpRule r
        ∈ (flattenFirewallInboundRules (pre ++ r :: mid ++ r2 :: post) remote).map fpRule := by
      have hm := List.mem_map_of_mem fpRule hin
      rwa [fpRule_mergeRule] at hm
    exact List.count_eq_one_of_mem (hnodup _ remote h1) hfpin

/-- Witness for `flatten_first_occurrence_nodup` at a concrete local list
with a duplicated fingerprint. -/
theorem flatten_first_occurrence_witness :
    (fpRule ruleTcp80b = fpRule ruleTcp80) ∧
    (∀ q ∈ ([] : List Rule), fpRule q ≠ fpRule ruleTcp80) ∧
    (fpRule ruleTcp80 ∈ [ruleTcp22, ruleTcp80].map fpRule) ∧
    (∃ rr, mapLookup (buildRemoteMap [ruleTcp22, ruleTcp80]) (fpRule ruleTcp80) = some rr ∧
      mergeRule ruleTcp80 rr ∈
        flattenFirewallInboundRules ([] ++ ruleTcp80 :: [] ++ ruleTcp80b :: [])
          [ruleTcp22, ruleTcp80] ∧
      List.count (fpRule ruleTcp80)
        ((flattenFirewallInboundRules ([] ++ ruleTcp80 :: [] ++ ruleTcp80b :: [])
          [ruleTcp22, ruleTcp80]).map fpRule) = 1) :=
  ⟨by decide, by decide, by decide,
    flatten_first_occurrence_nodup.2 [] ruleTcp80 [] ruleTcp80b [] [ruleTcp22, ruleTcp80]
      (by decide) (by decide) (by decide)⟩
